import Mathlib

/-!
Shallow embedding of `.github/scripts/close_github_cr_issues.py`.

Modelling conventions:
- Python strings are Lean `String` (a list of unicode code points).
- `unicodedata.normalize("NFKD", text)` is omitted: it is the identity on every
  code point exercised in this development (ASCII, the check marks U+2713,
  U+2714, the variation selector U+FE0F and the emoji U+2705 have no
  compatibility decomposition).
- The Python regex class `\w` and the methods `str.lower` / `str.strip` /
  `str.splitlines` are modelled for the code points exercised here (ASCII word
  characters plus the symbols above); exotic unicode space and letter code
  points that never occur in this development are not enumerated.
- Network responses are passed in as explicit data; a place where the Python
  code could raise while traversing a parsed response is a dedicated
  `malformed` constructor, and functions that can raise return `Option`.
-/

namespace CloseCrIssues

/-- Model of the whitespace class used by `str.strip` and the regex class
`\s` (ASCII whitespace plus the common unicode line separators). -/
def pyIsSpace (c : Char) : Bool :=
  c == ' ' || c == '\t' || c == '\n' || c == '\r' || c == '\x0b' || c == '\x0c' ||
  c == '\x1c' || c == '\x1d' || c == '\x1e' || c == '\x85' || c == '\xa0' ||
  c == '\u2028' || c == '\u2029'

/-- Line boundary code points recognised by Python `str.splitlines`. -/
def isLineBoundaryChar (c : Char) : Bool :=
  c == '\n' || c == '\r' || c == '\x0b' || c == '\x0c' || c == '\x1c' ||
  c == '\x1d' || c == '\x1e' || c == '\x85' || c == '\u2028' || c == '\u2029'

/-- Accumulator pass behind `pySplitlines`: `acc` holds the current line
reversed.  A trailing line boundary does not produce a final empty line,
matching Python `str.splitlines`. -/
def splitlinesAux : List Char → List Char → List (List Char)
  | [], acc => if acc.isEmpty then [] else [acc.reverse]
  | '\r' :: '\n' :: rest, acc => acc.reverse :: splitlinesAux rest []
  | c :: rest, acc =>
    if isLineBoundaryChar c then acc.reverse :: splitlinesAux rest []
    else splitlinesAux rest (c :: acc)

/-- Model of Python `str.splitlines`. -/
def pySplitlines (s : String) : List String :=
  (splitlinesAux s.data []).map String.mk

/-- Model of Python `str.strip` with no argument. -/
def pyStrip (s : String) : String :=
  String.mk (((s.data.dropWhile pyIsSpace).reverse.dropWhile pyIsSpace).reverse)

/-- Model of Python `str.lower` (ASCII case folding; the code points used in
this development have no other lowercase mapping). -/
def pyLower (s : String) : String :=
  String.mk (s.data.map Char.toLower)

/-- Model of the regex class `\w` for the code points exercised here. -/
def isWordChar (c : Char) : Bool :=
  c.isAlphanum || c == '_'

/-- Source `normalize`: NFKD (identity here, see the header note), then
`re.sub(r"[^\w\s]", "", text)`, then `.lower().strip()`. -/
def normalize (text : String) : String :=
  pyStrip (pyLower (String.mk (text.data.filter fun c => isWordChar c || pyIsSpace c)))

/-- Character list version of string startswith. -/
def isPrefixChars : List Char → List Char → Bool
  | [], _ => true
  | _ :: _, [] => false
  | a :: as, b :: bs => a == b && isPrefixChars as bs

/-- Character list version of the Python substring test `needle in hay`. -/
def containsChars (needle : List Char) : List Char → Bool
  | [] => needle.isEmpty
  | c :: rest => isPrefixChars needle (c :: rest) || containsChars needle rest

/-- Model of the Python substring test `needle in hay`. -/
def strContains (hay needle : String) : Bool :=
  containsChars needle.data hay.data

/-- Model of Python `s.startswith(p)` for a single string prefix. -/
def pyStartsWith (s p : String) : Bool :=
  isPrefixChars p.data s.data

/-- Model of Python `s.endswith(p)` for a single string suffix. -/
def pyEndsWith (s p : String) : Bool :=
  isPrefixChars p.data.reverse s.data.reverse

/-- Source `has_required_checklist`, first statement of the loop body: when the
comment body both starts and ends with a bold marker the slice `body[2:-2]` is
taken. -/
def stripBoldWrapper (body : String) : String :=
  if pyStartsWith body "**" && pyEndsWith body "**" then
    String.mk ((body.data.drop 2).dropLast.dropLast)
  else body

/-- Source constant `REQUIRED_PRIMARY_LABEL`. -/
def REQUIRED_PRIMARY_LABEL : String := "Normal Change Request"

/-- Source constant `REQUIRED_SECONDARY_LABELS` (a two element set). -/
def REQUIRED_SECONDARY_LABELS : List String := ["Application", "Infrastructure"]

/-- Source constant `LABELS_TO_ADD_ON_CLOSE` (a single string). -/
def LABELS_TO_ADD_ON_CLOSE : String := "Resolution/Done"

/-- Source constant `REQUIRED_CHECKLIST` (a five element set). -/
def REQUIRED_CHECKLIST : List String :=
  ["assessed", "authorized", "scheduled", "implemented", "reviewed"]

/-- Source test `line.startswith(("✔️", "✓", "- [x]", "* [x]"))`; the first
marker is U+2714 followed by the variation selector U+FE0F, the second is
U+2713. -/
def startsWithMarker (line : String) : Bool :=
  pyStartsWith line "\u2714\uFE0F" || pyStartsWith line "\u2713" ||
  pyStartsWith line "- [x]" || pyStartsWith line "* [x]"

/-- Keywords collected into `found` by one comment body in
`has_required_checklist`: strip the bold wrapper, split into lines, strip each
line, keep lines starting with a marker, and record every required keyword
contained in the normalized line. -/
def commentKeywordHits (body : String) : List String :=
  (pySplitlines (stripBoldWrapper body)).flatMap fun rawLine =>
    if startsWithMarker (pyStrip rawLine) then
      REQUIRED_CHECKLIST.filter fun item => strContains (normalize (pyStrip rawLine)) item
    else []

/-- Source `has_required_checklist`: the union of hits over all comments must
cover `REQUIRED_CHECKLIST`. -/
def has_required_checklist (comments : List String) : Bool :=
  REQUIRED_CHECKLIST.all fun item => (comments.flatMap commentKeywordHits).contains item

/-- One node of `projectItems.nodes[i].fieldValues.nodes` in the parsed graph
response.  `value fieldName valueName` is a dictionary node: `fieldName` models
`field.name` when present (fetched but never read by the code) and `valueName`
models the top level `name` key when present, so `field.get("name", "")` is
`valueName.getD ""`.  `malformed` is a node whose `name` value is not a string,
so that reading it raises inside the loop. -/
inductive FieldValueNode where
  | value (fieldName : Option String) (valueName : Option String)
  | malformed

/-- One node of `projectItems.nodes` in the parsed graph response; `malformed`
is an item whose `fieldValues.nodes` access raises. -/
inductive ProjectItemNode where
  | item (fieldValues : List FieldValueNode)
  | malformed

/-- The parsed graph response under `data`; `malformed` is a response where
`data["data"]["node"]["projectItems"]["nodes"]` itself raises. -/
inductive GraphNodeData where
  | node (projectItems : List ProjectItemNode)
  | malformed

/-- Source test `field.get("name", "").lower().strip() == "done"`; `none`
means the read raised. -/
def fieldValueIsDone : FieldValueNode → Option Bool
  | .value _ v => some (pyStrip (pyLower (v.getD "")) == "done")
  | .malformed => none

/-- Inner loop of `issue_has_project_status_done` over one item: `some true`
on the first matching value, `none` when a raise happens first. -/
def scanFieldValues : List FieldValueNode → Option Bool
  | [] => some false
  | fv :: rest =>
    match fieldValueIsDone fv with
    | none => none
    | some true => some true
    | some false => scanFieldValues rest

/-- Outer loop of `issue_has_project_status_done` over the project items. -/
def scanProjectItems : List ProjectItemNode → Option Bool
  | [] => some false
  | ProjectItemNode.malformed :: _ => none
  | ProjectItemNode.item fvs :: rest =>
    match scanFieldValues fvs with
    | none => none
    | some true => some true
    | some false => scanProjectItems rest

/-- Source `issue_has_project_status_done` applied to an already parsed graph
response: the whole traversal sits in a `try` block whose `except` clause logs
and falls through to `return False`. -/
def issue_has_project_status_done : GraphNodeData → Bool
  | GraphNodeData.malformed => false
  | GraphNodeData.node items => (scanProjectItems items).getD false

/-- Every field value dictionary reachable in a response, malformed or not. -/
def allFieldValues (items : List ProjectItemNode) : List FieldValueNode :=
  items.flatMap fun pi =>
    match pi with
    | ProjectItemNode.item fvs => fvs
    | ProjectItemNode.malformed => []

/-- The events of the traversal of `issue_has_project_status_done`, flattened
in the order the two nested loops visit them: a well formed value node
contributes its `done` test, and a malformed project item or value node
contributes a raise (`none`). -/
def traversalEvents (items : List ProjectItemNode) : List (Option Bool) :=
  items.flatMap fun pi =>
    match pi with
    | ProjectItemNode.item fvs => fvs.map fieldValueIsDone
    | ProjectItemNode.malformed => [none]

/-- Folds an event stream the way the nested loops of the source do: stop at
the first raise or the first matching value, otherwise keep scanning. -/
def eventScan : List (Option Bool) → Option Bool
  | [] => some false
  | none :: _ => none
  | some true :: _ => some true
  | some false :: rest => eventScan rest

/-- Replace the (fetched but never read) field name of a value node. -/
def mapFieldNameFV (f : Option String → Option String) : FieldValueNode → FieldValueNode
  | FieldValueNode.value fn vn => FieldValueNode.value (f fn) vn
  | FieldValueNode.malformed => FieldValueNode.malformed

/-- Replace every field name occurring in a parsed response. -/
def mapFieldNames (f : Option String → Option String) (items : List ProjectItemNode) :
    List ProjectItemNode :=
  items.map fun pi =>
    match pi with
    | ProjectItemNode.item fvs => ProjectItemNode.item (fvs.map (mapFieldNameFV f))
    | ProjectItemNode.malformed => ProjectItemNode.malformed

/-- Argument of `add_labels`: the source accepts a single string or a list. -/
inductive LabelsArg where
  | str (s : String)
  | list (l : List String)

/-- Source `add_labels`, first statement: wrap a bare string in a list. -/
def ensureLabelList : LabelsArg → List String
  | LabelsArg.str s => [s]
  | LabelsArg.list l => l

/-- Source `add_labels`: `new_labels = [label for label in labels_to_add if
label not in existing_labels]`. -/
def new_labels (existing_labels : List String) (labels_to_add : LabelsArg) : List String :=
  (ensureLabelList labels_to_add).filter fun label => !(existing_labels.contains label)

/-- Body of the POST issued by `add_labels`: `none` models the early return
that skips the mutating request when `new_labels` is empty. -/
def add_labels_post (existing_labels : List String) (labels_to_add : LabelsArg) :
    Option (List String) :=
  if (new_labels existing_labels labels_to_add).isEmpty then none
  else some (new_labels existing_labels labels_to_add)

/-- Label set of the issue after `add_labels` runs: the remote adds the posted
labels to the existing ones. -/
def labels_after_add (existing_labels : List String) (labels_to_add : LabelsArg) :
    List String :=
  existing_labels ++ (add_labels_post existing_labels labels_to_add).getD []

/-- Network reads triggered per issue from inside the gate sequence of
`main`. -/
inductive NetworkCall where
  | fetchComments
  | projectQuery
deriving DecidableEq

/-- Data of one issue as `main` sees it: the label set fetched with the issue,
and the comment list and graph response that the on-demand lookups would
return. -/
structure IssueRecord where
  labels : List String
  comments : List String
  projectData : GraphNodeData

/-- Gate sequence of the per issue loop body of `main`, in source order:
primary label, secondary label intersection, terminal label, checklist,
optional project status.  Returns the close decision together with the list of
network reads performed before the decision was reached. -/
def evaluateIssue (checkProjectStatus : Bool) (issue : IssueRecord) :
    Bool × List NetworkCall :=
  if !(issue.labels.contains REQUIRED_PRIMARY_LABEL) then (false, [])
  else if (issue.labels.filter fun l => REQUIRED_SECONDARY_LABELS.contains l).isEmpty then
    (false, [])
  else if issue.labels.contains "done" then (false, [])
  else if !(has_required_checklist issue.comments) then (false, [NetworkCall.fetchComments])
  else if checkProjectStatus && !(issue_has_project_status_done issue.projectData) then
    (false, [NetworkCall.fetchComments, NetworkCall.projectQuery])
  else if checkProjectStatus then
    (true, [NetworkCall.fetchComments, NetworkCall.projectQuery])
  else (true, [NetworkCall.fetchComments])

/-- Close decision of the per issue loop body of `main`. -/
def shouldClose (checkProjectStatus : Bool) (issue : IssueRecord) : Bool :=
  (evaluateIssue checkProjectStatus issue).fst

/-- Python truthiness test `not value` on an environment read: true on an
unset variable and on an empty string. -/
def pyFalsyEnv (v : Option String) : Bool :=
  match v with
  | none => true
  | some s => s.isEmpty

/-- Model of Python `str.split(sep)` for a one character separator. -/
def splitOnChar (sep : Char) : List Char → List (List Char)
  | [] => [[]]
  | c :: rest =>
    if c == sep then [] :: splitOnChar sep rest
    else
      match splitOnChar sep rest with
      | [] => [[c]]
      | s :: ss => (c :: s) :: ss

/-- Module level startup of the script: the guard `if not GITHUB_TOKEN or not
REPO or "/" not in REPO` raises the explicit exception, then `REPO_OWNER,
REPO_NAME = REPO.strip().split("/")` raises a ValueError unless the split has
exactly two parts. -/
def startupConfig (githubToken repoEnv : Option String) : Except String (String × String) :=
  if pyFalsyEnv githubToken || pyFalsyEnv repoEnv || !(strContains (repoEnv.getD "") "/") then
    Except.error "GITHUB_TOKEN or REPO not set or invalid format."
  else
    match splitOnChar '/' (pyStrip (repoEnv.getD "")).data with
    | [owner, name] => Except.ok (String.mk owner, String.mk name)
    | _ => Except.error "ValueError: unpack mismatch"

/-- Source read of `CHECK_PROJECT_STATUS`:
`os.getenv("CHECK_PROJECT_STATUS", "false").lower() == "true"`. -/
def parseCheckProjectStatus (v : Option String) : Bool :=
  pyLower (v.getD "false") == "true"

/-- Stated in the words of the specification, for comparison with
`startupConfig`: a repository identifier of owner and name form is a string
made of an owner part and a name part joined by exactly one slash. -/
def specOwnerNameForm (repo : String) : Prop :=
  repo.data.count '/' = 1


theorem mem_commentKeywordHits {kw body : String} :
    kw ∈ commentKeywordHits body ↔
      ∃ line ∈ pySplitlines (stripBoldWrapper body),
        startsWithMarker (pyStrip line) = true ∧ kw ∈ REQUIRED_CHECKLIST ∧
          strContains (normalize (pyStrip line)) kw = true := by
  simp only [commentKeywordHits, List.mem_flatMap]
  constructor
  · rintro ⟨line, hline, hmem⟩
    by_cases h : startsWithMarker (pyStrip line)
    · rw [if_pos h, List.mem_filter] at hmem
      exact ⟨line, hline, h, hmem.1, hmem.2⟩
    · simp [h] at hmem
  · rintro ⟨line, hline, hmark, hreq, hcont⟩
    exact ⟨line, hline, by simp [hmark, List.mem_filter, hreq, hcont]⟩

theorem checklist_complete_iff (comments : List String) :
    has_required_checklist comments = true ↔
      ∀ kw ∈ REQUIRED_CHECKLIST, ∃ body ∈ comments,
        ∃ line ∈ pySplitlines (stripBoldWrapper body),
          startsWithMarker (pyStrip line) = true ∧
            strContains (normalize (pyStrip line)) kw = true := by
  simp only [has_required_checklist, List.all_eq_true]
  refine forall_congr' fun kw => ?_
  refine imp_congr_right fun hkw => ?_
  rw [List.elem_iff, List.mem_flatMap]
  constructor
  · rintro ⟨body, hbody, hmem⟩
    rcases mem_commentKeywordHits.mp hmem with ⟨line, hline, hmark, _, hcont⟩
    exact ⟨body, hbody, line, hline, hmark, hcont⟩
  · rintro ⟨body, hbody, line, hline, hmark, hcont⟩
    exact ⟨body, hbody, mem_commentKeywordHits.mpr ⟨line, hline, hmark, hkw, hcont⟩⟩


/-- Claim C3. -/
theorem checklist_union_across_comments (comments : List String) :
    has_required_checklist comments = true ↔
      ∀ kw ∈ REQUIRED_CHECKLIST, ∃ body ∈ comments,
        ∃ line ∈ pySplitlines (stripBoldWrapper body),
          startsWithMarker (pyStrip line) = true ∧
            strContains (normalize (pyStrip line)) kw = true :=
  checklist_complete_iff comments

/-- Witness C3. -/
theorem checklist_union_across_comments_witness :
    ∀ kw ∈ REQUIRED_CHECKLIST,
      ∃ body ∈ ["✓ Assessed\n✓ Authorized\n✓ Scheduled", "- [x] implemented\n* [x] reviewed"],
        ∃ line ∈ pySplitlines (stripBoldWrapper body),
          startsWithMarker (pyStrip line) = true ∧
            strContains (normalize (pyStrip line)) kw = true :=
  (checklist_union_across_comments
    ["✓ Assessed\n✓ Authorized\n✓ Scheduled", "- [x] implemented\n* [x] reviewed"]).mp
    (by decide)

/-- Claim C4. -/
theorem checklist_five_lines_complete_four_incomplete :
    (∀ body : String,
        (∀ kw ∈ REQUIRED_CHECKLIST, ∃ line ∈ pySplitlines (stripBoldWrapper body),
          startsWithMarker (pyStrip line) = true ∧
            strContains (normalize (pyStrip line)) kw = true) →
        has_required_checklist [body] = true) ∧
    (∀ body kw, kw ∈ REQUIRED_CHECKLIST →
        (∀ line ∈ pySplitlines (stripBoldWrapper body),
          strContains (normalize (pyStrip line)) kw = false) →
        has_required_checklist [body] = false) := by
  constructor
  · intro body h
    rw [checklist_complete_iff]
    intro kw hkw
    rcases h kw hkw with ⟨line, hline, hmark, hcont⟩
    exact ⟨body, List.mem_singleton.mpr rfl, line, hline, hmark, hcont⟩
  · intro body kw hkw h
    cases hres : has_required_checklist [body] with
    | false => rfl
    | true =>
      rcases (checklist_complete_iff [body]).mp hres kw hkw with
        ⟨b, hb, line, hline, hmark, hcont⟩
      rw [List.mem_singleton] at hb
      subst hb
      have hfalse := h line hline
      rw [hcont] at hfalse
      simp at hfalse

/-- Witness C4. -/
theorem checklist_five_lines_complete_four_incomplete_witness :
    has_required_checklist
        ["**✔️ ASSESSED\n✓ Authorized\n- [x] scheduled\n* [x] IMPLEMENTED\n✔️ Reviewed**"] = true ∧
    has_required_checklist
        ["✓ assessed\n✓ authorized\n✓ scheduled\n✓ implemented"] = false :=
  ⟨checklist_five_lines_complete_four_incomplete.1
      "**✔️ ASSESSED\n✓ Authorized\n- [x] scheduled\n* [x] IMPLEMENTED\n✔️ Reviewed**"
      (by decide),
   checklist_five_lines_complete_four_incomplete.2
      "✓ assessed\n✓ authorized\n✓ scheduled\n✓ implemented" "reviewed"
      (by decide) (by decide)⟩

/-- Claim C9. -/
theorem checklist_order_insensitive :
    (∀ c₁ c₂ : List String, c₁.Perm c₂ →
        has_required_checklist c₁ = has_required_checklist c₂) ∧
    (∀ b₁ b₂ : String,
        (pySplitlines (stripBoldWrapper b₁)).Perm (pySplitlines (stripBoldWrapper b₂)) →
        has_required_checklist [b₁] = has_required_checklist [b₂]) := by
  constructor
  · intro c₁ c₂ hperm
    rw [Bool.eq_iff_iff]
    rw [checklist_complete_iff, checklist_complete_iff]
    constructor
    · intro h kw hkw
      rcases h kw hkw with ⟨body, hb, rest⟩
      exact ⟨body, hperm.mem_iff.mp hb, rest⟩
    · intro h kw hkw
      rcases h kw hkw with ⟨body, hb, rest⟩
      exact ⟨body, hperm.mem_iff.mpr hb, rest⟩
  · intro b₁ b₂ hperm
    rw [Bool.eq_iff_iff]
    rw [checklist_complete_iff, checklist_complete_iff]
    simp only [List.mem_singleton, exists_eq_left]
    constructor
    · intro h kw hkw
      rcases h kw hkw with ⟨line, hline, rest⟩
      exact ⟨line, hperm.mem_iff.mp hline, rest⟩
    · intro h kw hkw
      rcases h kw hkw with ⟨line, hline, rest⟩
      exact ⟨line, hperm.mem_iff.mpr hline, rest⟩

/-- Witness C9. -/
theorem checklist_order_insensitive_witness :
    has_required_checklist ["- [x] reviewed", "✓ assessed"] =
      has_required_checklist ["✓ assessed", "- [x] reviewed"] ∧
    has_required_checklist ["✓ assessed\n✓ reviewed"] =
      has_required_checklist ["✓ reviewed\n✓ assessed"] := by
  constructor
  · exact checklist_order_insensitive.1 _ _ (List.Perm.swap "✓ assessed" "- [x] reviewed" [])
  · apply checklist_order_insensitive.2
    have h1 : pySplitlines (stripBoldWrapper "✓ assessed\n✓ reviewed") =
        ["✓ assessed", "✓ reviewed"] := by decide
    have h2 : pySplitlines (stripBoldWrapper "✓ reviewed\n✓ assessed") =
        ["✓ reviewed", "✓ assessed"] := by decide
    rw [h1, h2]
    exact List.Perm.swap "✓ reviewed" "✓ assessed" []

/-- Claim C10. -/
theorem checklist_monotone_append :
    (∀ c d : List String, has_required_checklist c = true →
        has_required_checklist (c ++ d) = true) ∧
    has_required_checklist [] = false := by
  constructor
  · intro c d hc
    rw [checklist_complete_iff] at hc ⊢
    intro kw hkw
    rcases hc kw hkw with ⟨body, hb, rest⟩
    exact ⟨body, List.mem_append_left d hb, rest⟩
  · rfl

/-- Witness C10. -/
theorem checklist_monotone_append_witness :
    has_required_checklist
      (["✓ assessed\n✓ authorized\n✓ scheduled\n✓ implemented\n✓ reviewed"] ++
        ["no checklist here"]) = true :=
  checklist_monotone_append.1
    ["✓ assessed\n✓ authorized\n✓ scheduled\n✓ implemented\n✓ reviewed"]
    ["no checklist here"] (by decide)


/-- Claim C1. -/
theorem issue_closed_only_if_gates (cps : Bool) (issue : IssueRecord)
    (h : shouldClose cps issue = true) :
    REQUIRED_PRIMARY_LABEL ∈ issue.labels ∧
    (∃ l ∈ issue.labels, l ∈ REQUIRED_SECONDARY_LABELS) ∧
    "done" ∉ issue.labels ∧
    has_required_checklist issue.comments = true ∧
    (cps = true → issue_has_project_status_done issue.projectData = true) := by
  unfold shouldClose evaluateIssue at h
  by_cases c1 : (!(issue.labels.contains REQUIRED_PRIMARY_LABEL)) = true
  case pos => rw [if_pos c1] at h; simp at h
  rw [if_neg c1] at h
  by_cases c2 : ((issue.labels.filter fun l => REQUIRED_SECONDARY_LABELS.contains l).isEmpty) = true
  case pos => rw [if_pos c2] at h; simp at h
  rw [if_neg c2] at h
  by_cases c3 : (issue.labels.contains "done") = true
  case pos => rw [if_pos c3] at h; simp at h
  rw [if_neg c3] at h
  by_cases c4 : (!(has_required_checklist issue.comments)) = true
  case pos => rw [if_pos c4] at h; simp at h
  rw [if_neg c4] at h
  simp only [Bool.not_eq_true, Bool.not_eq_false'] at c1 c4
  refine ⟨List.elem_iff.mp c1, ?_, fun hm => c3 (List.elem_iff.mpr hm), c4, ?_⟩
  · have c2x : issue.labels.filter (fun l => REQUIRED_SECONDARY_LABELS.contains l) ≠ [] := by
      intro hnil
      exact c2 (by rw [hnil]; rfl)
    rcases List.exists_mem_of_ne_nil _ c2x with ⟨l, hl⟩
    rcases List.mem_filter.mp hl with ⟨hmem, hsec⟩
    exact ⟨l, hmem, List.elem_iff.mp hsec⟩
  · intro hcps
    by_cases c5 : (cps && !(issue_has_project_status_done issue.projectData)) = true
    · rw [if_pos c5] at h; simp at h
    · rw [hcps] at c5
      simpa using c5

/-- Witness C1. -/
theorem issue_closed_only_if_gates_witness :
    REQUIRED_PRIMARY_LABEL ∈ ["Normal Change Request", "Application"] ∧
    (∃ l ∈ ["Normal Change Request", "Application"], l ∈ REQUIRED_SECONDARY_LABELS) ∧
    "done" ∉ ["Normal Change Request", "Application"] ∧
    has_required_checklist
      ["✓ assessed\n✓ authorized\n✓ scheduled\n✓ implemented\n✓ reviewed"] = true ∧
    (true = true →
      issue_has_project_status_done
        (GraphNodeData.node
          [ProjectItemNode.item [FieldValueNode.value (some "Status") (some "Done")]]) = true) :=
  issue_closed_only_if_gates true
    { labels := ["Normal Change Request", "Application"],
      comments := ["✓ assessed\n✓ authorized\n✓ scheduled\n✓ implemented\n✓ reviewed"],
      projectData :=
        GraphNodeData.node
          [ProjectItemNode.item [FieldValueNode.value (some "Status") (some "Done")]] }
    (by decide)

/-- Claim C5. -/
theorem reject_before_network_calls (cps : Bool) (issue : IssueRecord)
    (h : REQUIRED_PRIMARY_LABEL ∉ issue.labels ∨ "done" ∈ issue.labels) :
    evaluateIssue cps issue = (false, []) := by
  unfold evaluateIssue
  rcases h with h | h
  · have c1 : (!(issue.labels.contains REQUIRED_PRIMARY_LABEL)) = true := by
      simpa using fun hc => h (List.elem_iff.mp hc)
    rw [if_pos c1]
  · by_cases c1 : (!(issue.labels.contains REQUIRED_PRIMARY_LABEL)) = true
    · rw [if_pos c1]
    · rw [if_neg c1]
      by_cases c2 : ((issue.labels.filter fun l => REQUIRED_SECONDARY_LABELS.contains l).isEmpty) = true
      · rw [if_pos c2]
      · rw [if_neg c2, if_pos (List.elem_iff.mpr h : issue.labels.contains "done" = true)]

/-- Witness C5. -/
theorem reject_before_network_calls_witness :
    evaluateIssue true
      { labels := ["Normal Change Request", "Application", "done"],
        comments := ["✓ assessed"],
        projectData := GraphNodeData.malformed } = (false, []) :=
  reject_before_network_calls true
    { labels := ["Normal Change Request", "Application", "done"],
      comments := ["✓ assessed"],
      projectData := GraphNodeData.malformed }
    (Or.inr (by decide))


theorem scanFieldValues_eq_true_exists (fvs : List FieldValueNode)
    (h : scanFieldValues fvs = some true) :
    ∃ fv ∈ fvs, fieldValueIsDone fv = some true := by
  induction fvs with
  | nil => simp [scanFieldValues] at h
  | cons fv rest ih =>
    simp only [scanFieldValues] at h
    cases hfv : fieldValueIsDone fv with
    | none =>
      rw [hfv] at h
      exact Option.noConfusion h
    | some b =>
      cases b with
      | true => exact ⟨fv, List.mem_cons_self fv rest, hfv⟩
      | false =>
        rw [hfv] at h
        rcases ih h with ⟨fv2, hm, hd⟩
        exact ⟨fv2, List.mem_cons_of_mem fv hm, hd⟩

theorem scanProjectItems_eq_true_exists (items : List ProjectItemNode)
    (h : scanProjectItems items = some true) :
    ∃ fv ∈ allFieldValues items, fieldValueIsDone fv = some true := by
  induction items with
  | nil => simp [scanProjectItems] at h
  | cons pi rest ih =>
    cases pi with
    | malformed => simp [scanProjectItems] at h
    | item fvs =>
      simp only [scanProjectItems] at h
      have hcons : allFieldValues (ProjectItemNode.item fvs :: rest) =
          fvs ++ allFieldValues rest := rfl
      cases hscan : scanFieldValues fvs with
      | none =>
        rw [hscan] at h
        exact Option.noConfusion h
      | some b =>
        cases b with
        | true =>
          rcases scanFieldValues_eq_true_exists fvs hscan with ⟨fv, hm, hd⟩
          exact ⟨fv, by rw [hcons]; exact List.mem_append_left _ hm, hd⟩
        | false =>
          rw [hscan] at h
          rcases ih h with ⟨fv, hm, hd⟩
          exact ⟨fv, by rw [hcons]; exact List.mem_append_right _ hm, hd⟩

/-- Claim C7. -/
theorem project_status_fail_closed :
    (∀ items, scanProjectItems items = none →
        issue_has_project_status_done (GraphNodeData.node items) = false) ∧
    issue_has_project_status_done GraphNodeData.malformed = false ∧
    (∀ items, (∀ fv ∈ allFieldValues items, fieldValueIsDone fv ≠ some true) →
        issue_has_project_status_done (GraphNodeData.node items) = false) := by
  refine ⟨?_, rfl, ?_⟩
  · intro items h
    show (scanProjectItems items).getD false = false
    rw [h]
    rfl
  · intro items h
    show (scanProjectItems items).getD false = false
    cases hscan : scanProjectItems items with
    | none => rfl
    | some b =>
      cases b with
      | false => rfl
      | true =>
        rcases scanProjectItems_eq_true_exists items hscan with ⟨fv, hfv, hdone⟩
        exact absurd hdone (h fv hfv)

/-- Witness C7. -/
theorem project_status_fail_closed_witness :
    issue_has_project_status_done
      (GraphNodeData.node [ProjectItemNode.item [FieldValueNode.malformed]]) = false ∧
    issue_has_project_status_done
      (GraphNodeData.node
        [ProjectItemNode.item [FieldValueNode.value (some "Status") (some "In Progress")]]) =
      false :=
  ⟨project_status_fail_closed.1 [ProjectItemNode.item [FieldValueNode.malformed]] (by decide),
   project_status_fail_closed.2.2
     [ProjectItemNode.item [FieldValueNode.value (some "Status") (some "In Progress")]]
     (by decide)⟩

/-- Counterexample C2. -/
theorem project_status_done_emoji_refutes_claim :
    issue_has_project_status_done
      (GraphNodeData.node
        [ProjectItemNode.item [FieldValueNode.value (some "Status") (some "Done ✅")]]) =
      false := by decide

theorem scanFieldValues_eq_eventScan (fvs : List FieldValueNode) :
    scanFieldValues fvs = eventScan (fvs.map fieldValueIsDone) := by
  induction fvs with
  | nil => rfl
  | cons fv rest ih =>
    cases hfv : fieldValueIsDone fv with
    | none => simp [scanFieldValues, eventScan, hfv]
    | some b =>
      cases b with
      | true => simp [scanFieldValues, eventScan, hfv]
      | false => simp [scanFieldValues, eventScan, hfv, ih]

theorem eventScan_append (a b : List (Option Bool)) :
    eventScan (a ++ b) =
      match eventScan a with
      | some false => eventScan b
      | x => x := by
  induction a with
  | nil => rfl
  | cons e rest ih =>
    cases e with
    | none => rfl
    | some bb =>
      cases bb with
      | true => rfl
      | false => exact ih

theorem scanProjectItems_eq_eventScan (items : List ProjectItemNode) :
    scanProjectItems items = eventScan (traversalEvents items) := by
  induction items with
  | nil => rfl
  | cons pi rest ih =>
    cases pi with
    | malformed => rfl
    | item fvs =>
      show (match scanFieldValues fvs with
        | none => none
        | some true => some true
        | some false => scanProjectItems rest) =
        eventScan (fvs.map fieldValueIsDone ++ traversalEvents rest)
      rw [eventScan_append, ← scanFieldValues_eq_eventScan]
      cases scanFieldValues fvs with
      | none => rfl
      | some b =>
        cases b with
        | true => rfl
        | false => exact ih

theorem eventScan_true_iff (l : List (Option Bool)) :
    eventScan l = some true ↔
      ∃ pre rest, l = pre ++ some true :: rest ∧ ∀ e ∈ pre, e = some false := by
  induction l with
  | nil =>
    constructor
    · intro h
      simp [eventScan] at h
    · rintro ⟨pre, rest, heq, -⟩
      rcases pre with _ | ⟨p, pre⟩ <;> simp at heq
  | cons e rest ih =>
    cases e with
    | none =>
      constructor
      · intro h
        exact Option.noConfusion h
      · rintro ⟨pre, r, heq, hall⟩
        rcases pre with _ | ⟨p, pre⟩
        · simp at heq
        · rw [List.cons_append] at heq
          have hp := hall p (by simp)
          rw [hp] at heq
          simp at heq
    | some b =>
      cases b with
      | true =>
        constructor
        · intro _
          exact ⟨[], rest, rfl, by simp⟩
        · intro _
          rfl
      | false =>
        constructor
        · intro h
          rcases ih.mp h with ⟨pre, r, heq, hall⟩
          refine ⟨some false :: pre, r, by rw [List.cons_append, heq], ?_⟩
          intro e he
          rcases List.mem_cons.mp he with he | he
          · rw [he]
          · exact hall e he
        · rintro ⟨pre, r, heq, hall⟩
          rcases pre with _ | ⟨p, pre⟩
          · simp at heq
          · rw [List.cons_append] at heq
            injection heq with h1 h2
            show eventScan rest = some true
            exact ih.mpr ⟨pre, r, h2, fun e he => hall e (List.mem_cons_of_mem p he)⟩

theorem fieldValueIsDone_mapFieldNameFV (f : Option String → Option String)
    (fv : FieldValueNode) :
    fieldValueIsDone (mapFieldNameFV f fv) = fieldValueIsDone fv := by
  cases fv <;> rfl

theorem traversalEvents_mapFieldNames (f : Option String → Option String)
    (items : List ProjectItemNode) :
    traversalEvents (mapFieldNames f items) = traversalEvents items := by
  induction items with
  | nil => rfl
  | cons pi rest ih =>
    cases pi with
    | malformed =>
      show none :: traversalEvents (mapFieldNames f rest) = none :: traversalEvents rest
      rw [ih]
    | item fvs =>
      show (fvs.map (mapFieldNameFV f)).map fieldValueIsDone ++
          traversalEvents (mapFieldNames f rest) =
        fvs.map fieldValueIsDone ++ traversalEvents rest
      rw [ih, List.map_map]
      congr 1
      exact List.map_congr_left fun fv _ => fieldValueIsDone_mapFieldNameFV f fv

/-- Amended C2: the lookup reads neither a board title (the graph query does
not fetch one) nor the field name — rewriting every field name leaves the
result unchanged — and over the whole response it returns true exactly when a
single select value whose name lowercased and stripped equals `done` occurs
before any malformed node in traversal order; the value `Done ✅` never
matches, a later item with a matching value is found, and a malformed node
before the matching value makes the lookup fail closed to false. -/
theorem project_status_value_name_only :
    (∀ (f : Option String → Option String) (items : List ProjectItemNode),
        issue_has_project_status_done (GraphNodeData.node (mapFieldNames f items)) =
          issue_has_project_status_done (GraphNodeData.node items)) ∧
    (∀ items : List ProjectItemNode,
        issue_has_project_status_done (GraphNodeData.node items) = true ↔
          ∃ pre rest, traversalEvents items = pre ++ some true :: rest ∧
            ∀ e ∈ pre, e = some false) ∧
    (∀ fn : Option String,
        fieldValueIsDone (FieldValueNode.value fn (some "Done ✅")) = some false) ∧
    (∀ fn fn2 : Option String,
        issue_has_project_status_done
          (GraphNodeData.node
            [ProjectItemNode.item [FieldValueNode.value fn (some "In Progress")],
             ProjectItemNode.item [FieldValueNode.value fn2 (some "Done")]]) = true) ∧
    (∀ fn : Option String,
        issue_has_project_status_done
          (GraphNodeData.node
            [ProjectItemNode.item
              [FieldValueNode.malformed, FieldValueNode.value fn (some "Done")]]) = false) := by
  refine ⟨?_, ?_, fun fn => rfl, fun fn fn2 => rfl, fun fn => rfl⟩
  · intro f items
    show (scanProjectItems (mapFieldNames f items)).getD false =
      (scanProjectItems items).getD false
    rw [scanProjectItems_eq_eventScan, scanProjectItems_eq_eventScan,
      traversalEvents_mapFieldNames]
  · intro items
    show (scanProjectItems items).getD false = true ↔ _
    rw [scanProjectItems_eq_eventScan]
    have hgd : (eventScan (traversalEvents items)).getD false = true ↔
        eventScan (traversalEvents items) = some true := by
      cases h : eventScan (traversalEvents items) with
      | none => simp
      | some b => cases b <;> simp
    exact hgd.trans (eventScan_true_iff _)

/-- Witness C2 amended. -/
theorem project_status_value_name_only_witness :
    ∃ pre rest,
      traversalEvents
          [ProjectItemNode.item [FieldValueNode.value (some "Status") (some "In Progress")],
           ProjectItemNode.item [FieldValueNode.value (some "Status") (some "Done")]] =
        pre ++ some true :: rest ∧ ∀ e ∈ pre, e = some false :=
  (project_status_value_name_only.2.1 _).mp (by decide)

/-- Claim C6. -/
theorem add_labels_idempotent (existing : List String) (toAdd : LabelsArg)
    (hex : existing.Nodup) (hreq : (ensureLabelList toAdd).Nodup) :
    (∀ l ∈ new_labels existing toAdd, l ∉ existing) ∧
    ((∀ l ∈ ensureLabelList toAdd, l ∈ existing) →
      add_labels_post existing toAdd = none) ∧
    (labels_after_add existing toAdd).Nodup := by
  have hdisj : ∀ l ∈ new_labels existing toAdd, l ∉ existing := by
    intro l hl
    rcases List.mem_filter.mp hl with ⟨_, hp⟩
    simpa using hp
  refine ⟨hdisj, ?_, ?_⟩
  · intro hall
    unfold add_labels_post
    rw [if_pos]
    have hnil : new_labels existing toAdd = [] := by
      unfold new_labels
      rw [List.filter_eq_nil_iff]
      intro a ha
      simpa using hall a ha
    rw [hnil]
    rfl
  · have hnodupnew : (new_labels existing toAdd).Nodup := List.Nodup.filter _ hreq
    unfold labels_after_add add_labels_post
    by_cases he : (new_labels existing toAdd).isEmpty = true
    · rw [if_pos he]
      simpa using hex
    · rw [if_neg he]
      simp only [Option.getD_some]
      rw [List.nodup_append]
      exact ⟨hex, hnodupnew, fun a ha hb => (hdisj a hb) ha⟩

/-- Witness C6. -/
theorem add_labels_idempotent_witness :
    (∀ l ∈ new_labels ["done", "Resolution/Done"] (LabelsArg.str "Resolution/Done"),
        l ∉ ["done", "Resolution/Done"]) ∧
    ((∀ l ∈ ensureLabelList (LabelsArg.str "Resolution/Done"),
        l ∈ ["done", "Resolution/Done"]) →
      add_labels_post ["done", "Resolution/Done"] (LabelsArg.str "Resolution/Done") = none) ∧
    (labels_after_add ["done", "Resolution/Done"] (LabelsArg.str "Resolution/Done")).Nodup :=
  add_labels_idempotent ["done", "Resolution/Done"] (LabelsArg.str "Resolution/Done")
    (by decide) (by decide)


theorem containsChars_single_iff (c : Char) (l : List Char) :
    containsChars [c] l = true ↔ c ∈ l := by
  induction l with
  | nil => simp [containsChars]
  | cons d rest ih =>
    have hpre : isPrefixChars [c] (d :: rest) = (c == d) := by
      simp [isPrefixChars]
    rw [containsChars, hpre]
    simp only [Bool.or_eq_true, ih, List.mem_cons, beq_iff_eq]

theorem strContains_slash_iff (s : String) :
    strContains s "/" = true ↔ ('/' : Char) ∈ s.data := by
  show containsChars ("/" : String).data s.data = true ↔ _
  have h : ("/" : String).data = ['/'] := rfl
  rw [h]
  exact containsChars_single_iff '/' s.data

theorem splitOnChar_sep_free (sep : Char) (l : List Char) (h : l.count sep = 0) :
    splitOnChar sep l = [l] := by
  induction l with
  | nil => rfl
  | cons c rest ih =>
    by_cases hcs : c = sep
    · subst hcs
      rw [List.count_cons_self] at h
      exact absurd h (by omega)
    · have hne : (c == sep) = false := beq_eq_false_iff_ne.mpr hcs
      have hrest : rest.count sep = 0 := by
        rwa [List.count_cons_of_ne (Ne.symm hcs)] at h
      simp only [splitOnChar, hne, Bool.false_eq_true, if_false, ih hrest]

theorem splitOnChar_append_sep (sep : Char) (a b : List Char) (ha : a.count sep = 0) :
    splitOnChar sep (a ++ sep :: b) = a :: splitOnChar sep b := by
  induction a with
  | nil => simp [splitOnChar]
  | cons c rest ih =>
    by_cases hcs : c = sep
    · subst hcs
      rw [List.count_cons_self] at ha
      exact absurd ha (by omega)
    · have hne : (c == sep) = false := beq_eq_false_iff_ne.mpr hcs
      have hrest : rest.count sep = 0 := by
        rwa [List.count_cons_of_ne (Ne.symm hcs)] at ha
      show splitOnChar sep (c :: (rest ++ sep :: b)) = (c :: rest) :: splitOnChar sep b
      simp only [splitOnChar, hne, Bool.false_eq_true, if_false]
      rw [ih hrest]

theorem count_one_decomp (sep : Char) (l : List Char) (h : l.count sep = 1) :
    ∃ a b, a.count sep = 0 ∧ b.count sep = 0 ∧ l = a ++ sep :: b := by
  induction l with
  | nil => simp at h
  | cons c rest ih =>
    by_cases hcs : c = sep
    · have hcount : rest.count sep = 0 := by
        rw [hcs, List.count_cons_self] at h
        omega
      exact ⟨[], rest, by simp, hcount, by rw [hcs, List.nil_append]⟩
    · have hrest : rest.count sep = 1 := by
        rwa [List.count_cons_of_ne (Ne.symm hcs)] at h
      rcases ih hrest with ⟨a, b, ha, hb, heq⟩
      refine ⟨c :: a, b, ?_, hb, by rw [heq, List.cons_append]⟩
      rw [List.count_cons_of_ne (Ne.symm hcs)]
      exact ha

theorem splitOnChar_length (sep : Char) (l : List Char) :
    (splitOnChar sep l).length = l.count sep + 1 := by
  induction l with
  | nil => rfl
  | cons c rest ih =>
    by_cases hcs : c = sep
    · subst hcs
      rw [List.count_cons_self]
      simp only [splitOnChar, beq_self_eq_true, if_true, List.length_cons, ih]
    · have hne : (c == sep) = false := beq_eq_false_iff_ne.mpr hcs
      rw [List.count_cons_of_ne (Ne.symm hcs)]
      simp only [splitOnChar, hne, Bool.false_eq_true, if_false]
      cases hsp : splitOnChar sep rest with
      | nil =>
        rw [hsp] at ih
        simp at ih
      | cons s ss =>
        rw [hsp] at ih
        simp only [List.length_cons] at ih ⊢
        omega

theorem count_dropWhile_of_not (p : Char → Bool) (sep : Char) (hsep : p sep = false)
    (l : List Char) : (l.dropWhile p).count sep = l.count sep := by
  induction l with
  | nil => rfl
  | cons c rest ih =>
    by_cases hc : p c = true
    · have hcs : c ≠ sep := fun he => by
        rw [he, hsep] at hc
        exact Bool.noConfusion hc
      rw [List.dropWhile_cons, if_pos hc, ih, List.count_cons_of_ne (Ne.symm hcs)]
    · rw [List.dropWhile_cons, if_neg hc]

theorem count_pyStrip (s : String) (sep : Char) (hsep : pyIsSpace sep = false) :
    (pyStrip s).data.count sep = s.data.count sep := by
  show (((s.data.dropWhile pyIsSpace).reverse.dropWhile pyIsSpace).reverse.count sep) = _
  rw [List.count_reverse, count_dropWhile_of_not pyIsSpace sep hsep,
    List.count_reverse, count_dropWhile_of_not pyIsSpace sep hsep]

/-- Claim C8.  An absent credential or repository variable is modelled by the
Python falsiness test of the source guard (unset, or set to the empty string,
which the guard `not GITHUB_TOKEN or not REPO` treats alike). -/
theorem startup_config_validation (tok repo : Option String) :
    ((pyFalsyEnv tok = true ∨ pyFalsyEnv repo = true ∨ ¬specOwnerNameForm (repo.getD "")) →
      ∃ e, startupConfig tok repo = Except.error e) ∧
    (pyFalsyEnv tok = false → pyFalsyEnv repo = false → specOwnerNameForm (repo.getD "") →
      ∃ owner name : String, startupConfig tok repo = Except.ok (owner, name) ∧
        owner.data.count '/' = 0 ∧ name.data.count '/' = 0 ∧
        (pyStrip (repo.getD "")).data = owner.data ++ '/' :: name.data) := by
  constructor
  · intro h
    by_cases hcond :
        (pyFalsyEnv tok || pyFalsyEnv repo || !(strContains (repo.getD "") "/")) = true
    · exact ⟨"GITHUB_TOKEN or REPO not set or invalid format.",
        by unfold startupConfig; rw [if_pos hcond]⟩
    · have hx : pyFalsyEnv tok = false ∧ pyFalsyEnv repo = false ∧
          strContains (repo.getD "") "/" = true := by
        simp only [Bool.or_eq_true, not_or, Bool.not_eq_true] at hcond
        exact ⟨hcond.1.1, hcond.1.2, by simpa using hcond.2⟩
      have hform : ¬specOwnerNameForm (repo.getD "") := by
        rcases h with h | h | h
        · have hf := hx.1
          rw [h] at hf
          exact Bool.noConfusion hf
        · have hf := hx.2.1
          rw [h] at hf
          exact Bool.noConfusion hf
        · exact h
      have hmem : ('/' : Char) ∈ (repo.getD "").data :=
        (strContains_slash_iff _).mp hx.2.2
      have hpos : 0 < (repo.getD "").data.count '/' := List.count_pos_iff.mpr hmem
      have hge : 2 ≤ (repo.getD "").data.count '/' := by
        unfold specOwnerNameForm at hform
        omega
      refine ⟨"ValueError: unpack mismatch", ?_⟩
      unfold startupConfig
      rw [if_neg hcond]
      have hlen : (splitOnChar '/' (pyStrip (repo.getD "")).data).length =
          (repo.getD "").data.count '/' + 1 := by
        rw [splitOnChar_length, count_pyStrip _ _ (by decide)]
      cases hL : splitOnChar '/' (pyStrip (repo.getD "")).data with
      | nil => rfl
      | cons x t =>
        cases t with
        | nil => rfl
        | cons y t2 =>
          cases t2 with
          | nil =>
            rw [hL] at hlen
            simp only [List.length_cons, List.length_nil] at hlen
            exact absurd hlen (by omega)
          | cons z t3 => rfl
  · intro htok hrepo hform
    have hstrip : (pyStrip (repo.getD "")).data.count '/' = 1 := by
      rw [count_pyStrip _ _ (by decide)]
      exact hform
    rcases count_one_decomp '/' _ hstrip with ⟨a, b, ha, hb, heq⟩
    have hsplit : splitOnChar '/' (pyStrip (repo.getD "")).data = [a, b] := by
      rw [heq, splitOnChar_append_sep '/' a b ha, splitOnChar_sep_free '/' b hb]
    have hmem : ('/' : Char) ∈ (repo.getD "").data := by
      refine List.count_pos_iff.mp ?_
      rw [hform]
      omega
    have hsc : strContains (repo.getD "") "/" = true := (strContains_slash_iff _).mpr hmem
    have hcond :
        ¬((pyFalsyEnv tok || pyFalsyEnv repo || !(strContains (repo.getD "") "/")) = true) := by
      rw [htok, hrepo, hsc]
      simp
    refine ⟨String.mk a, String.mk b, ?_, ha, hb, heq⟩
    unfold startupConfig
    rw [if_neg hcond, hsplit]

/-- Witness C8. -/
theorem startup_config_validation_witness :
    (∃ e, startupConfig none (some "owner/repo") = Except.error e) ∧
    (∃ owner name : String,
      startupConfig (some "token") (some " own/name ") = Except.ok (owner, name) ∧
        owner.data.count '/' = 0 ∧ name.data.count '/' = 0 ∧
        (pyStrip ((some " own/name ").getD "")).data = owner.data ++ '/' :: name.data) :=
  ⟨(startup_config_validation none (some "owner/repo")).1 (Or.inl (by decide)),
   (startup_config_validation (some "token") (some " own/name ")).2
     (by decide) (by decide)
     (by show (" own/name " : String).data.count '/' = 1; decide)⟩

end CloseCrIssues
